import Mathlib

/-
Verification of the artifacts subsystem of wingman-chat.

The development shallowly embeds:
  - the AI tool layer of `src/hooks/useArtifacts.ts` (`artifactsTools`),
  - the classifier `artifactKind` of `src/lib/artifacts.ts`,
  - the tree builder `buildFileTree` of the artifacts browser component.

The virtual-filesystem Store itself (`lib/fs.ts`) is not among the sources at
hand — only its callers are — so its operations are modelled from the spec
(§4.1) and marked as such.  JavaScript strings are modelled as Lean `String`
(with `.data` for character-level reasoning); `s.startsWith(p)` is modelled as
a character-prefix test; `localeCompare` ordering is modelled as code-point
comparison.  A missing string argument of a tool call is modelled as `""`,
which the guards of the tools treat exactly as JS treats `undefined`.
-/

/-- JSON values: the shape of the objects the tools pass to `JSON.stringify`. -/
inductive Json where
  | null
  | bool (b : Bool)
  | num (n : Nat)
  | str (s : String)
  | arr (elems : List Json)
  | obj (fields : List (String × Json))

/-- Field lookup on a JSON object (`none` on non-objects and absent keys). -/
def Json.lookup : Json → String → Option Json
  | .obj fields, k => (fields.find? (fun f => f.1 == k)).map (fun f => f.2)
  | _, _ => none

/-- One stored artifact of the virtual filesystem (spec §3: path, content and
a presentation-only classification tag). -/
structure FileRecord where
  path : String
  content : String
  contentType : String
deriving DecidableEq

/-- The Store state: the collection of `FileRecord`s, keyed by `path`. -/
abbrev Fs := List FileRecord

/-- JS `s.startsWith(pre)`: `pre` is a character prefix of `s`. -/
def startsWith (s pre : String) : Bool :=
  pre.data.isPrefixOf s.data

/-- Modelled from the spec: `getFile(path)` of the missing `lib/fs.ts` Store —
a pure lookup of the record at the exact path, absence as `none` (§4.1). -/
def getFile (fs : Fs) (path : String) : Option FileRecord :=
  fs.find? (fun f => f.path == path)

/-- Modelled from the spec: `listFiles()` of the missing `lib/fs.ts` Store with
no filter — every record (§4.1). -/
def listFiles (fs : Fs) : List FileRecord :=
  fs

/-- Modelled from the spec: `deleteFile(path)` of the missing `lib/fs.ts` Store
(§4.1) — deletes the exact record when one exists, otherwise cascades over all
records having `path` as a strict folder prefix; `false` iff neither exists. -/
def deleteFile (fs : Fs) (path : String) : Bool × Fs :=
  if fs.any (fun f => f.path == path) then
    (true, fs.filter (fun f => f.path != path))
  else if fs.any (fun f => startsWith f.path (path ++ "/")) then
    (true, fs.filter (fun f => !(startsWith f.path (path ++ "/"))))
  else
    (false, fs)

/-- Modelled from the spec: `createFile(path, content)` of the missing
`lib/fs.ts` Store (§4.1) — fails on an invalid path or an occupied path,
otherwise inserts the new record. -/
def createFile (fs : Fs) (path content : String) : Option Fs :=
  if path = "" ∨ startsWith path "/" = false then none
  else if fs.any (fun f => f.path == path) then none
  else some (fs ++ [{ path := path, content := content, contentType := "text" }])

/-- Modelled from the spec: `renameFile(oldPath, newPath)` of the missing
`lib/fs.ts` Store (§4.1) — exact rename when `oldPath` is a record (failing on
a destination collision), otherwise an atomic subtree move when `oldPath` is a
strict folder prefix of records; path format validated before any mutation. -/
def renameFile (fs : Fs) (oldPath newPath : String) : Bool × Fs :=
  if startsWith newPath "/" = false then (false, fs)
  else if fs.any (fun f => f.path == oldPath) then
    if fs.any (fun f => f.path == newPath) then (false, fs)
    else (true, fs.map (fun f => if f.path == oldPath then { f with path := newPath } else f))
  else if fs.any (fun f => startsWith f.path (oldPath ++ "/")) then
    if fs.any (fun f => startsWith f.path (oldPath ++ "/") &&
        fs.any (fun g => !(startsWith g.path (oldPath ++ "/")) &&
          g.path == newPath ++ (f.path.drop oldPath.length))) then
      (false, fs)
    else
      (true, fs.map (fun f =>
        if startsWith f.path (oldPath ++ "/") then
          { f with path := newPath ++ (f.path.drop oldPath.length) }
        else f))
  else (false, fs)

/-- Result of one tool invocation: the JSON response, the Store state as the
tool left it (`none` when no Store was available), and whether the Store
mutation inside the tool body was actually reached. -/
structure ToolResult where
  json : Json
  fs : Option Fs
  invoked : Bool

/-- The `create_file` tool of `useArtifacts.ts`: argument guards, path format
validation, then `fs.createFile` (a thrown `AlreadyExists` is caught and
reported as a generic failure). -/
def create_file (fs? : Option Fs) (path content : String) : ToolResult :=
  if path = "" ∨ content = "" then
    { json := .obj [("error", .str "Path and content are required")], fs := fs?, invoked := false }
  else if startsWith path "/" = false then
    { json := .obj [("error", .str "Path must start with /")], fs := fs?, invoked := false }
  else
    match fs? with
    | none => { json := .obj [("error", .str "File system not available")], fs := none, invoked := false }
    | some fs =>
      match createFile fs path content with
      | some fs1 =>
          { json := .obj [("success", .bool true),
                          ("message", .str ("File created: " ++ path)),
                          ("path", .str path)],
            fs := some fs1, invoked := true }
      | none =>
          { json := .obj [("error", .str "Failed to create file")], fs := some fs, invoked := true }

/-- The `list_files` tool of `useArtifacts.ts`: takes all records and, when a
directory argument is given, keeps those with `file.path.startsWith(directory)`
— a raw character-prefix filter. -/
def list_files (fs? : Option Fs) (directory : Option String) : ToolResult :=
  match fs? with
  | none => { json := .obj [("error", .str "File system not available")], fs := none, invoked := false }
  | some fs =>
    let allFiles := listFiles fs
    let filteredFiles :=
      match directory with
      | some d => if d = "" then allFiles else allFiles.filter (fun f => startsWith f.path d)
      | none => allFiles
    let fileList := filteredFiles.map (fun f =>
      Json.obj [("path", .str f.path), ("size", .num f.content.length),
                ("contentType", .str f.contentType)])
    { json := .obj [("success", .bool true), ("files", .arr fileList),
                    ("count", .num fileList.length)],
      fs := fs?, invoked := false }

/-- The `delete_file` tool of `useArtifacts.ts`: not-found guard via
`fs.getFile(path)` and a `path + '/'` prefix scan, then `fs.deleteFile`. -/
def delete_file (fs? : Option Fs) (path : String) : ToolResult :=
  if path = "" then
    { json := .obj [("error", .str "Path is required")], fs := fs?, invoked := false }
  else
    match fs? with
    | none => { json := .obj [("error", .str "File system not available")], fs := none, invoked := false }
    | some fs =>
      let file := getFile fs path
      let isFolder := (listFiles fs).any (fun f => startsWith f.path (path ++ "/"))
      if file.isNone && !isFolder then
        { json := .obj [("error", .str ("File or folder not found: " ++ path))],
          fs := some fs, invoked := false }
      else
        let r := deleteFile fs path
        if r.1 then
          let itemType := if file.isSome then "file" else "folder"
          { json := .obj [("success", .bool true),
                          ("message", .str (itemType ++ " deleted: " ++ path)),
                          ("path", .str path)],
            fs := some r.2, invoked := true }
        else
          { json := .obj [("error", .str ("Failed to delete: " ++ path))],
            fs := some r.2, invoked := true }

/-- The `move_file` tool of `useArtifacts.ts`: requires `fs.getFile(fromPath)`
to be an existing record and `fs.getFile(toPath)` to be absent before calling
`fs.renameFile`. -/
def move_file (fs? : Option Fs) (fromPath toPath : String) : ToolResult :=
  if fromPath = "" ∨ toPath = "" then
    { json := .obj [("error", .str "Both fromPath and toPath are required")], fs := fs?, invoked := false }
  else
    match fs? with
    | none => { json := .obj [("error", .str "File system not available")], fs := none, invoked := false }
    | some fs =>
      if (getFile fs fromPath).isNone then
        { json := .obj [("error", .str ("Source file not found: " ++ fromPath))],
          fs := some fs, invoked := false }
      else if (getFile fs toPath).isSome then
        { json := .obj [("error", .str ("Destination file already exists: " ++ toPath))],
          fs := some fs, invoked := false }
      else if startsWith toPath "/" = false then
        { json := .obj [("error", .str "Destination path must start with /")],
          fs := some fs, invoked := false }
      else
        let r := renameFile fs fromPath toPath
        if r.1 = false then
          { json := .obj [("error", .str ("Failed to move file from " ++ fromPath ++ " to " ++ toPath ++
                                          ". Source may not exist or destination already exists."))],
            fs := some r.2, invoked := true }
        else
          { json := .obj [("success", .bool true),
                          ("message", .str ("File moved from " ++ fromPath ++ " to " ++ toPath)),
                          ("fromPath", .str fromPath), ("toPath", .str toPath)],
            fs := some r.2, invoked := true }

/-- The `read_file` tool of `useArtifacts.ts`. -/
def read_file (fs? : Option Fs) (path : String) : ToolResult :=
  if path = "" then
    { json := .obj [("error", .str "Path is required")], fs := fs?, invoked := false }
  else
    match fs? with
    | none => { json := .obj [("error", .str "File system not available")], fs := none, invoked := false }
    | some fs =>
      match getFile fs path with
      | none => { json := .obj [("error", .str ("File not found: " ++ path))], fs := some fs, invoked := false }
      | some file =>
          { json := .obj [("success", .bool true),
                          ("file", .obj [("path", .str path), ("size", .num file.content.length),
                                         ("content", .str file.content),
                                         ("contentType", .str file.contentType)])],
            fs := some fs, invoked := false }

/-- The `current_path` tool of `useArtifacts.ts` (active file introspection;
an empty active path is falsy in JS and reported as no active file). -/
def current_path (fs? : Option Fs) (activeFile : Option String) : ToolResult :=
  if activeFile.getD "" = "" then
    { json := .obj [("success", .bool true),
                    ("message", .str "No file is currently active"),
                    ("currentPath", .null)],
      fs := fs?, invoked := false }
  else
    { json := .obj [("success", .bool true), ("currentPath", .str (activeFile.getD ""))],
      fs := fs?, invoked := false }

/-- The `current_file` tool of `useArtifacts.ts`. -/
def current_file (fs? : Option Fs) (activeFile : Option String) : ToolResult :=
  if activeFile.getD "" = "" then
    { json := .obj [("success", .bool true),
                    ("message", .str "No file is currently active"),
                    ("currentFile", .null)],
      fs := fs?, invoked := false }
  else
    match fs? with
    | none => { json := .obj [("error", .str "File system not available")], fs := none, invoked := false }
    | some fs =>
      match getFile fs (activeFile.getD "") with
      | none =>
          { json := .obj [("error", .str ("Active file not found: " ++ activeFile.getD ""))],
            fs := some fs, invoked := false }
      | some file =>
          { json := .obj [("success", .bool true),
                          ("currentFile", .obj [("path", .str file.path), ("size", .num file.content.length),
                                                ("content", .str file.content),
                                                ("contentType", .str file.contentType)])],
            fs := some fs, invoked := false }

/-- One invocation of one of the seven tools of `artifactsTools`. -/
inductive ToolCall where
  | create (path content : String)
  | list (directory : Option String)
  | delete (path : String)
  | move (fromPath toPath : String)
  | read (path : String)
  | currentPath
  | currentFile

/-- Dispatch over the seven tools of `artifactsTools`. -/
def runTool (fs? : Option Fs) (activeFile : Option String) : ToolCall → ToolResult
  | .create p c => create_file fs? p c
  | .list d => list_files fs? d
  | .delete p => delete_file fs? p
  | .move a b => move_file fs? a b
  | .read p => read_file fs? p
  | .currentPath => current_path fs? activeFile
  | .currentFile => current_file fs? activeFile

/-- A response is well-shaped when it carries `success: true` without an
`error` field, or an `error` string without a `success` field. -/
def goodResponse (j : Json) : Prop :=
  (j.lookup "success" = some (.bool true) ∧ j.lookup "error" = none) ∨
  ((∃ s, j.lookup "error" = some (.str s)) ∧ j.lookup "success" = none)

theorem goodResponse_error (s : String) :
    goodResponse (.obj [("error", .str s)]) :=
  Or.inr ⟨⟨s, rfl⟩, rfl⟩

theorem goodResponse_ok3 (k1 k2 : String) (v1 v2 : Json)
    (h1 : k1 ≠ "error") (h2 : k2 ≠ "error") :
    goodResponse (.obj [("success", .bool true), (k1, v1), (k2, v2)]) := by
  refine Or.inl ⟨rfl, ?_⟩
  simp [Json.lookup, List.find?, beq_eq_false_iff_ne.mpr h1, beq_eq_false_iff_ne.mpr h2]

theorem goodResponse_ok1 (k1 : String) (v1 : Json) (h1 : k1 ≠ "error") :
    goodResponse (.obj [("success", .bool true), (k1, v1)]) := by
  refine Or.inl ⟨rfl, ?_⟩
  simp [Json.lookup, List.find?, beq_eq_false_iff_ne.mpr h1]

theorem goodResponse_ok4 (k1 k2 k3 : String) (v1 v2 v3 : Json)
    (h1 : k1 ≠ "error") (h2 : k2 ≠ "error") (h3 : k3 ≠ "error") :
    goodResponse (.obj [("success", .bool true), (k1, v1), (k2, v2), (k3, v3)]) := by
  refine Or.inl ⟨rfl, ?_⟩
  simp [Json.lookup, List.find?, beq_eq_false_iff_ne.mpr h1, beq_eq_false_iff_ne.mpr h2, beq_eq_false_iff_ne.mpr h3]

/-- C3: for every tool of the artifacts tool set, every argument object and
every filesystem state, the returned JSON object carries either a field
`success: true` or a field `error` holding a string — never both and never
neither. -/
theorem tool_response_success_xor_error (fs? : Option Fs) (activeFile : Option String)
    (call : ToolCall) :
    ((runTool fs? activeFile call).json.lookup "success" = some (.bool true) ∧
      (runTool fs? activeFile call).json.lookup "error" = none) ∨
    ((∃ s, (runTool fs? activeFile call).json.lookup "error" = some (.str s)) ∧
      (runTool fs? activeFile call).json.lookup "success" = none) := by
  show goodResponse (runTool fs? activeFile call).json
  cases call <;>
    simp only [runTool, create_file, list_files, delete_file, move_file, read_file,
      current_path, current_file] <;>
    repeat' first
      | apply goodResponse_error
      | (apply goodResponse_ok1 <;> decide)
      | (apply goodResponse_ok3 <;> decide)
      | (apply goodResponse_ok4 <;> decide)
      | split

/-- A demonstration state holding the single record `/src2/a.ts`. -/
def demoFsA : Fs := [{ path := "/src2/a.ts", content := "x", contentType := "code" }]

/-- C1: the `list_files` tool filters with a raw `startsWith`, so with the
directory `/src` it returns the record `/src2/a.ts` (which prefix-as-directory
semantics must exclude), and `/src` and `/src/` give different result sets. -/
theorem list_files_conflates_src_and_src2 :
    (list_files (some demoFsA) (some "/src")).json =
      .obj [("success", .bool true),
            ("files", .arr [.obj [("path", .str "/src2/a.ts"), ("size", .num 1),
                                  ("contentType", .str "code")]]),
            ("count", .num 1)] ∧
    (list_files (some demoFsA) (some "/src/")).json =
      .obj [("success", .bool true), ("files", .arr []), ("count", .num 0)] ∧
    Json.obj [("success", .bool true),
              ("files", .arr [.obj [("path", .str "/src2/a.ts"), ("size", .num 1),
                                    ("contentType", .str "code")]]),
              ("count", .num 1)] ≠
      Json.obj [("success", .bool true), ("files", .arr []), ("count", .num 0)] := by
  refine ⟨rfl, rfl, ?_⟩
  intro h
  simp at h

/-- A demonstration state holding the single record `/src/a.ts`. -/
def demoFsB : Fs := [{ path := "/src/a.ts", content := "x", contentType := "code" }]

/-- C2: when `fromPath` is a folder prefix (`/src`) and not itself a record,
the `move_file` tool answers `Source file not found` without ever calling the
Store's `renameFile`, leaving the state unchanged — the folder subtree move is
unreachable through the tool. -/
theorem move_file_folder_case_unreachable :
    move_file (some demoFsB) "/src" "/lib" =
      { json := .obj [("error", .str "Source file not found: /src")],
        fs := some demoFsB, invoked := false } := by
  rfl

/-- C4: for a non-empty path, the `delete_file` tool returns the not-found
error exactly when no record's path equals the path and none starts with the
path followed by `/`; when such a record exists, the Store's `deleteFile` is
invoked. -/
theorem delete_file_notfound_iff (fs : Fs) (path : String) (hp : path ≠ "") :
    ((delete_file (some fs) path).json =
        .obj [("error", .str ("File or folder not found: " ++ path))] ↔
      ¬ ((∃ f ∈ fs, f.path = path) ∨ ∃ f ∈ fs, startsWith f.path (path ++ "/") = true)) ∧
    (((∃ f ∈ fs, f.path = path) ∨ ∃ f ∈ fs, startsWith f.path (path ++ "/") = true) →
      (delete_file (some fs) path).invoked = true) := by
  have hiff : ((getFile fs path).isNone &&
      !((listFiles fs).any (fun f => startsWith f.path (path ++ "/")))) = true ↔
      ¬ ((∃ f ∈ fs, f.path = path) ∨ ∃ f ∈ fs, startsWith f.path (path ++ "/") = true) := by
    simp [getFile, listFiles, Option.isNone_iff_eq_none, List.find?_eq_none, List.any_eq_true,
      beq_iff_eq, not_or]
  by_cases hc : ((getFile fs path).isNone &&
      !((listFiles fs).any (fun f => startsWith f.path (path ++ "/")))) = true
  · have hnot := hiff.mp hc
    constructor
    · simp [delete_file, hp, hc, hnot]
    · intro h
      exact absurd h hnot
  · have hex : (∃ f ∈ fs, f.path = path) ∨ ∃ f ∈ fs, startsWith f.path (path ++ "/") = true := by
      by_contra hcon
      exact hc (hiff.mpr hcon)
    have hdel : (deleteFile fs path).1 = true := by
      rcases hex with ⟨f, hf, hfp⟩ | ⟨f, hf, hfp⟩
      · have : fs.any (fun f => f.path == path) = true :=
          List.any_eq_true.mpr ⟨f, hf, beq_iff_eq.mpr hfp⟩
        simp [deleteFile, this]
      · by_cases hx : fs.any (fun f => f.path == path) = true
        · simp [deleteFile, hx]
        · have : fs.any (fun f => startsWith f.path (path ++ "/")) = true :=
            List.any_eq_true.mpr ⟨f, hf, hfp⟩
          simp [deleteFile, hx, this]
    constructor
    · simp [delete_file, hp, hc, hdel, hex]
    · intro _
      simp [delete_file, hp, hc, hdel]

/-- C4 witness: on the state `demoFsB` and the path `/src/a.ts` the hypotheses
hold and the conclusion is realized. -/
theorem delete_file_notfound_iff_witness :
    ("/src/a.ts" : String) ≠ "" ∧ (delete_file (some demoFsB) "/src/a.ts").invoked = true := by
  refine ⟨by decide, ?_⟩
  exact (delete_file_notfound_iff demoFsB "/src/a.ts" (by decide)).2
    (Or.inl ⟨{ path := "/src/a.ts", content := "x", contentType := "code" },
      by simp [demoFsB], rfl⟩)

/-- C5: on a path that is empty or does not start with `/`, the `create_file`
tool reports an error, never reaches the Store's `createFile`, and leaves the
state unchanged (validation precedes any mutation). -/
theorem create_file_invalid_path (fs : Fs) (path content : String)
    (h : path = "" ∨ startsWith path "/" = false) :
    (create_file (some fs) path content).invoked = false ∧
    (create_file (some fs) path content).fs = some fs ∧
    ∃ s, (create_file (some fs) path content).json = .obj [("error", .str s)] := by
  by_cases h1 : path = "" ∨ content = ""
  · unfold create_file
    rw [if_pos h1]
    exact ⟨rfl, rfl, _, rfl⟩
  · have hsw : startsWith path "/" = false :=
      h.resolve_left (fun hpe => h1 (Or.inl hpe))
    unfold create_file
    rw [if_neg h1, if_pos hsw]
    exact ⟨rfl, rfl, _, rfl⟩

/-- C5 witness: the relative path `abc` is rejected without mutation. -/
theorem create_file_invalid_path_witness :
    (("abc" : String) = "" ∨ startsWith "abc" "/" = false) ∧
    ((create_file (some []) "abc" "x").invoked = false ∧
     (create_file (some []) "abc" "x").fs = some [] ∧
     ∃ s, (create_file (some []) "abc" "x").json = .obj [("error", .str s)]) :=
  ⟨Or.inr (by decide), create_file_invalid_path [] "abc" "x" (Or.inr (by decide))⟩

/-- C9: with empty (or missing, modelled as empty) content, the `create_file`
tool answers `Path and content are required` and never reaches the Store's
`createFile`, for every path and state. -/
theorem create_file_empty_content (fs : Fs) (path : String) :
    (create_file (some fs) path "").json =
      .obj [("error", .str "Path and content are required")] ∧
    (create_file (some fs) path "").invoked = false ∧
    (create_file (some fs) path "").fs = some fs := by
  unfold create_file
  rw [if_pos (Or.inr rfl)]
  exact ⟨rfl, rfl, rfl⟩

/-- JS `toLowerCase` on one character (ASCII case mapping). -/
def lowerChar : Char → Char
  | 'A' => 'a' | 'B' => 'b' | 'C' => 'c' | 'D' => 'd' | 'E' => 'e' | 'F' => 'f'
  | 'G' => 'g' | 'H' => 'h' | 'I' => 'i' | 'J' => 'j' | 'K' => 'k' | 'L' => 'l'
  | 'M' => 'm' | 'N' => 'n' | 'O' => 'o' | 'P' => 'p' | 'Q' => 'q' | 'R' => 'r'
  | 'S' => 's' | 'T' => 't' | 'U' => 'u' | 'V' => 'v' | 'W' => 'w' | 'X' => 'x'
  | 'Y' => 'y' | 'Z' => 'z'
  | c => c

/-- JS `toLowerCase` on a character list. -/
def toLowerCase (s : List Char) : List Char :=
  s.map lowerChar

/-- JS `s.split(sep).pop()`: the suffix after the last occurrence of `sep`,
the whole list when `sep` does not occur. -/
def lastAfter (sep : Char) (s : List Char) : List Char :=
  (s.reverse.takeWhile (fun c => c != sep)).reverse

/-- The `ext` of `artifactKind`: `path.split('.').pop()?.toLowerCase() || ''`. -/
def extOf (path : List Char) : List Char :=
  toLowerCase (lastAfter '.' path)

/-- The `basename` of `artifactKind`:
`path.split('/').pop()?.toLowerCase() || ''`. -/
def basenameOf (path : List Char) : List Char :=
  toLowerCase (lastAfter '/' path)

/-- The artifact kinds of `lib/artifacts.ts`. -/
inductive ArtifactKind where
  | text
  | code
  | svg
  | html
  | csv
  | mermaid
  | markdown
deriving DecidableEq

/-- The `codeExtensions` table of `artifactKind`, verbatim. -/
def codeExtensions : List (List Char) :=
  ([ "js", "jsx", "ts", "tsx", "mjs", "cjs", "py", "go", "rs", "java", "jar",
    "c", "cc", "cpp", "cxx", "h", "hpp", "hxx", "hh", "cs", "php", "rb",
    "swift", "kt", "kts", "scala", "sc", "dart", "m", "mm", "sh", "bash",
    "zsh", "ksh", "pl", "pm", "t", "r", "jl", "lua", "hs", "ex", "exs",
    "erl", "hrl", "fs", "fsi", "fsx", "fsscript", "vb", "vbs", "asm", "s",
    "S", "sql", "d.ts", "groovy", "gradle", "coffee", "nim", "clj", "cljs",
    "edn", "lisp", "scm", "rkt", "ml", "mli", "ada", "adb", "ads", "pas",
    "pp", "f", "f90", "f95", "for", "v", "vh", "sv", "vhd", "vhdl",
    "css", "scss", "sass", "less", "styl", "json", "jsonc", "json5",
    "yaml", "yml", "toml", "ini", "conf", "cfg", "xml" ] : List String).map String.data

/-- The decision chain of `artifactKind` as a function of the derived `ext`
and `basename`: reserved basenames first, then the extension checks, then the
`codeExtensions` table, defaulting to `text`. -/
def artifactKindCore (ext basename : List Char) : ArtifactKind :=
  if basename = "dockerfile".data ∨ "dockerfile.".data.isPrefixOf basename = true then .code
  else if basename = "makefile".data ∨ "makefile.".data.isPrefixOf basename = true then .code
  else if ext = "html".data ∨ ext = "htm".data then .html
  else if ext = "svg".data then .svg
  else if ext = "csv".data ∨ ext = "tsv".data then .csv
  else if ext = "mmd".data ∨ ext = "mermaid".data then .mermaid
  else if ext = "md".data ∨ ext = "markdown".data then .markdown
  else if ext ∈ codeExtensions then .code
  else .text

/-- The `artifactKind` classifier of `lib/artifacts.ts`: the extension is the
lowercased segment of the whole path after its last dot, the basename the
lowercased segment after its last slash. -/
def artifactKind (path : String) : ArtifactKind :=
  artifactKindCore (extOf path.data) (basenameOf path.data)

/-- C6: any path whose lowercased final slash-segment is `dockerfile` or
`makefile`, or begins with `dockerfile.` or `makefile.`, classifies as `code`,
before the extension table is ever consulted. -/
theorem artifactKind_reserved_basename (path : String)
    (h : (basenameOf path.data = "dockerfile".data ∨
          "dockerfile.".data.isPrefixOf (basenameOf path.data) = true) ∨
         (basenameOf path.data = "makefile".data ∨
          "makefile.".data.isPrefixOf (basenameOf path.data) = true)) :
    artifactKind path = .code := by
  unfold artifactKind artifactKindCore
  split
  · rfl
  · split
    · rfl
    · rename_i h1 h2
      rcases h with h | h
      · exact absurd h h1
      · exact absurd h h2

/-- C6 witness: `/Dockerfile.md` has the reserved basename prefix and
classifies as `code`, not `markdown`. -/
theorem artifactKind_reserved_basename_witness :
    ((basenameOf ("/Dockerfile.md" : String).data = "dockerfile".data ∨
      "dockerfile.".data.isPrefixOf (basenameOf ("/Dockerfile.md" : String).data) = true) ∨
     (basenameOf ("/Dockerfile.md" : String).data = "makefile".data ∨
      "makefile.".data.isPrefixOf (basenameOf ("/Dockerfile.md" : String).data) = true)) ∧
    artifactKind "/Dockerfile.md" = .code :=
  ⟨Or.inl (Or.inr (by decide)),
   artifactKind_reserved_basename "/Dockerfile.md" (Or.inl (Or.inr (by decide)))⟩

theorem lowerChar_eq_dot (c : Char) : lowerChar c = '.' ↔ c = '.' := by
  unfold lowerChar
  split <;> simp_all

theorem lowerChar_eq_slash (c : Char) : lowerChar c = '/' ↔ c = '/' := by
  unfold lowerChar
  split <;> simp_all

theorem toLowerCase_lastAfter (sep : Char) (hsep : ∀ c, lowerChar c = sep ↔ c = sep)
    (l : List Char) :
    toLowerCase (lastAfter sep l) = lastAfter sep (toLowerCase l) := by
  have hfun : (fun c => c != sep) ∘ lowerChar = fun c => c != sep := by
    funext c
    by_cases h : c = sep
    · have hls : lowerChar c = sep := (hsep c).mpr h
      simp [Function.comp, bne, beq_iff_eq.mpr hls, beq_iff_eq.mpr h]
    · have h2 : lowerChar c ≠ sep := fun he => h ((hsep c).mp he)
      simp [Function.comp, bne, beq_eq_false_iff_ne.mpr h, beq_eq_false_iff_ne.mpr h2]
  unfold toLowerCase lastAfter
  rw [List.map_reverse, ← List.map_reverse lowerChar l, List.takeWhile_map, hfun]

theorem lastAfter_append_not_mem (sep : Char) (l1 l2 : List Char) (h : sep ∉ l2) :
    lastAfter sep (l1 ++ l2) = lastAfter sep l1 ++ l2 := by
  unfold lastAfter
  rw [List.reverse_append, List.takeWhile_append]
  have hall : l2.reverse.takeWhile (fun c => c != sep) = l2.reverse :=
    List.takeWhile_eq_self_iff.mpr
      (fun x hx => bne_iff_ne.mpr (fun he => h (he ▸ List.mem_reverse.mp hx)))
  rw [hall, if_pos rfl, List.reverse_append, List.reverse_reverse]

theorem lastAfter_append_mem (sep : Char) (l1 l2 : List Char) (h : sep ∈ l2) :
    lastAfter sep (l1 ++ l2) = lastAfter sep l2 := by
  unfold lastAfter
  rw [List.reverse_append, List.takeWhile_append]
  have hne : (l2.reverse.takeWhile (fun c => c != sep)).length ≠ l2.reverse.length := by
    intro hl
    have heq : l2.reverse.takeWhile (fun c => c != sep) = l2.reverse :=
      (List.takeWhile_prefix _).eq_of_length hl
    have := List.takeWhile_eq_self_iff.mp heq sep (List.mem_reverse.mpr h)
    simp at this
  rw [if_neg hne]

theorem not_mem_lastAfter (sep : Char) (l : List Char) : sep ∉ lastAfter sep l := by
  intro h
  have := List.mem_takeWhile_imp (List.mem_reverse.mp h)
  simp at this

/-- The part of the list before (and including) the last occurrence of `sep`. -/
def dirPart (sep : Char) (s : List Char) : List Char :=
  (s.reverse.dropWhile (fun c => c != sep)).reverse

theorem dirPart_append_lastAfter (sep : Char) (l : List Char) :
    dirPart sep l ++ lastAfter sep l = l := by
  unfold dirPart lastAfter
  rw [← List.reverse_append, List.takeWhile_append_dropWhile, List.reverse_reverse]

theorem dirPart_reverse_head (sep : Char) (l : List Char) (h : dirPart sep l ≠ []) :
    ∃ t, (dirPart sep l).reverse = sep :: t := by
  unfold dirPart at h ⊢
  set d := l.reverse.dropWhile (fun c => c != sep) with hd_def
  have hd : d ≠ [] := by
    intro h0
    exact h (by rw [h0, List.reverse_nil])
  have hsepv : d.head hd = sep :=
    bne_eq_false_iff_eq.mp (List.head_dropWhile_not (fun c => c != sep) l.reverse hd)
  refine ⟨d.tail, ?_⟩
  rw [List.reverse_reverse]
  conv_lhs => rw [← List.head_cons_tail d hd]
  rw [hsepv]

theorem slash_mem_extOf (p : String) (hp : startsWith p "/" = true)
    (hdot : '.' ∉ lastAfter '/' p.data) :
    '/' ∈ extOf p.data := by
  have hdecomp := dirPart_append_lastAfter '/' p.data
  have hbslash := not_mem_lastAfter '/' p.data
  have hPrepNe : dirPart '/' p.data ≠ [] := by
    intro h0
    have hpd : p.data = lastAfter '/' p.data := by
      conv_lhs => rw [← hdecomp, h0, List.nil_append]
    have hsl : '/' ∈ p.data := by
      unfold startsWith at hp
      have hpre : ("/" : String).data <+: p.data := List.isPrefixOf_iff_prefix.mp hp
      exact hpre.subset (by simp [show ("/" : String).data = ['/'] from rfl])
    exact hbslash (hpd ▸ hsl)
  obtain ⟨t, ht⟩ := dirPart_reverse_head '/' p.data hPrepNe
  have h1 := lastAfter_append_not_mem '.' (dirPart '/' p.data) (lastAfter '/' p.data) hdot
  rw [hdecomp] at h1
  have h2 : '/' ∈ lastAfter '.' (dirPart '/' p.data) := by
    unfold lastAfter
    rw [ht, List.takeWhile_cons]
    simp
  unfold extOf toLowerCase
  rw [h1]
  exact List.mem_map.mpr ⟨'/', List.mem_append_left _ h2, rfl⟩

theorem artifactKindCore_slash (e1 e2 bn : List Char) (h1 : '/' ∈ e1) (h2 : '/' ∈ e2) :
    artifactKindCore e1 bn = artifactKindCore e2 bn := by
  have hlit : ∀ (e : List Char), '/' ∈ e → ∀ (s : String), '/' ∉ s.data → e ≠ s.data :=
    fun e he s hs heq => hs (heq ▸ he)
  have hno : ∀ e : List Char, '/' ∈ e → e ∉ codeExtensions := by
    intro e he hmem
    have hall : ∀ x ∈ codeExtensions, ('/' : Char) ∉ x := by decide
    exact hall e hmem he
  have k3 : ∀ e, '/' ∈ e → ¬(e = "html".data ∨ e = "htm".data) := by
    rintro e he (h | h)
    · exact hlit e he "html" (by decide) h
    · exact hlit e he "htm" (by decide) h
  have k4 : ∀ e, '/' ∈ e → ¬(e = "svg".data) := fun e he h => hlit e he "svg" (by decide) h
  have k5 : ∀ e, '/' ∈ e → ¬(e = "csv".data ∨ e = "tsv".data) := by
    rintro e he (h | h)
    · exact hlit e he "csv" (by decide) h
    · exact hlit e he "tsv" (by decide) h
  have k6 : ∀ e, '/' ∈ e → ¬(e = "mmd".data ∨ e = "mermaid".data) := by
    rintro e he (h | h)
    · exact hlit e he "mmd" (by decide) h
    · exact hlit e he "mermaid" (by decide) h
  have k7 : ∀ e, '/' ∈ e → ¬(e = "md".data ∨ e = "markdown".data) := by
    rintro e he (h | h)
    · exact hlit e he "md" (by decide) h
    · exact hlit e he "markdown" (by decide) h
  by_cases hb1 : bn = "dockerfile".data ∨ "dockerfile.".data <+: bn
  · simp [artifactKindCore, List.isPrefixOf_iff_prefix, hb1]
  · by_cases hb2 : bn = "makefile".data ∨ "makefile.".data <+: bn
    · simp [artifactKindCore, List.isPrefixOf_iff_prefix, hb1, hb2]
    · simp [artifactKindCore, List.isPrefixOf_iff_prefix, hb1, hb2,
        k3 e1 h1, k3 e2 h2, k4 e1 h1, k4 e2 h2,
        k5 e1 h1, k5 e2 h2, k6 e1 h1, k6 e2 h2, k7 e1 h1, k7 e2 h2,
        hno e1 h1, hno e2 h2]

/-- C7: the classification depends only on the final slash-segment — although
the implementation splits the whole path on dots, two absolute paths with the
same final segment always classify identically (a dot in a directory segment
cannot change the result). -/
theorem artifactKind_depends_only_on_basename (p q : String)
    (hp : startsWith p "/" = true) (hq : startsWith q "/" = true)
    (hb : lastAfter '/' p.data = lastAfter '/' q.data) :
    artifactKind p = artifactKind q := by
  have hbn : basenameOf p.data = basenameOf q.data := by
    unfold basenameOf
    rw [hb]
  by_cases hdot : '.' ∈ lastAfter '/' p.data
  · have hdp := dirPart_append_lastAfter '/' p.data
    have hdq := dirPart_append_lastAfter '/' q.data
    have e1 := lastAfter_append_mem '.' (dirPart '/' p.data) (lastAfter '/' p.data) hdot
    rw [hdp] at e1
    have hdotq : '.' ∈ lastAfter '/' q.data := hb ▸ hdot
    have e2 := lastAfter_append_mem '.' (dirPart '/' q.data) (lastAfter '/' q.data) hdotq
    rw [hdq] at e2
    have hext : extOf p.data = extOf q.data := by
      unfold extOf
      rw [e1, e2, hb]
    unfold artifactKind
    rw [hext, hbn]
  · have s1 := slash_mem_extOf p hp hdot
    have hdotq : '.' ∉ lastAfter '/' q.data := by
      rw [← hb]
      exact hdot
    have s2 := slash_mem_extOf q hq hdotq
    unfold artifactKind
    rw [hbn]
    exact artifactKindCore_slash _ _ _ s1 s2

/-- C7 witness: `/my.dir/README` and `/x/README` share the final segment and
classify identically even though the dot sits in a directory segment. -/
theorem artifactKind_depends_only_on_basename_witness :
    (startsWith "/my.dir/README" "/" = true ∧ startsWith "/x/README" "/" = true ∧
     lastAfter '/' ("/my.dir/README" : String).data = lastAfter '/' ("/x/README" : String).data) ∧
    artifactKind "/my.dir/README" = artifactKind "/x/README" :=
  ⟨⟨by decide, by decide, by decide⟩,
   artifactKind_depends_only_on_basename "/my.dir/README" "/x/README"
     (by decide) (by decide) (by decide)⟩

/-- C8: changing only the letter case of characters in the final
slash-segment of a path never changes its classification. -/
theorem artifactKind_case_insensitive (p q : String) (pre b1 b2 : List Char)
    (hp : p.data = pre ++ b1) (hq : q.data = pre ++ b2)
    (_hseg : b1 = lastAfter '/' p.data)
    (hcase : toLowerCase b1 = toLowerCase b2) :
    artifactKind p = artifactKind q := by
  have key : toLowerCase p.data = toLowerCase q.data := by
    rw [hp, hq]
    unfold toLowerCase at hcase ⊢
    rw [List.map_append, List.map_append, hcase]
  have cdot := toLowerCase_lastAfter '.' lowerChar_eq_dot
  have cslash := toLowerCase_lastAfter '/' lowerChar_eq_slash
  unfold artifactKind extOf basenameOf
  rw [cdot p.data, cdot q.data, cslash p.data, cslash q.data, key]

/-- C8 witness: `/a/b.md` and `/a/B.MD` differ only in the case of the final
segment and classify identically. -/
theorem artifactKind_case_insensitive_witness :
    (("/a/b.md" : String).data = ("/a/" : String).data ++ ("b.md" : String).data ∧
     ("/a/B.MD" : String).data = ("/a/" : String).data ++ ("B.MD" : String).data ∧
     ("b.md" : String).data = lastAfter '/' ("/a/b.md" : String).data ∧
     toLowerCase ("b.md" : String).data = toLowerCase ("B.MD" : String).data) ∧
    artifactKind "/a/b.md" = artifactKind "/a/B.MD" :=
  ⟨⟨by decide, by decide, by decide, by decide⟩,
   artifactKind_case_insensitive "/a/b.md" "/a/B.MD"
     ("/a/" : String).data ("b.md" : String).data ("B.MD" : String).data
     (by decide) (by decide) (by decide) (by decide)⟩

/-- One input file of `buildFileTree` (the browser passes `{path, content}`
pairs read off the Store). -/
structure InputFile where
  path : String
  content : String
deriving DecidableEq

/-- One node of the tree built by `buildFileTree` (the `file` payload of a
file node keeps the input record, as the JS node keeps its `file` field). -/
inductive FileNode where
  | folder (name : String) (path : String) (children : List FileNode)
  | file (name : String) (path : String) (f : InputFile)

/-- The sibling comparator of `buildFileTree` as a total preorder test:
folders before files, same type ordered by name (`localeCompare` modelled as
code-point comparison). -/
def nodeLe : FileNode → FileNode → Bool
  | .folder .., .file .. => true
  | .file .., .folder .. => false
  | .folder n1 _ _, .folder n2 _ _ => decide (n1 ≤ n2)
  | .file n1 _ _, .file n2 _ _ => decide (n1 ≤ n2)

/-- JS stable `Array.prototype.sort` of one sibling level. -/
def sortLevel (level : List FileNode) : List FileNode :=
  level.mergeSort nodeLe

/-- JS stable sort of the input files by path. -/
def sortFiles (files : List InputFile) : List InputFile :=
  files.mergeSort (fun a b => decide (a.path ≤ b.path))

/-- JS `s.split(sep)`, keeping empty segments. -/
def splitChar (sep : Char) (l : List Char) : List (List Char) :=
  l.foldr
    (fun c acc =>
      match acc with
      | h :: t => if c = sep then [] :: h :: t else (c :: h) :: t
      | [] => [[c]])
    [[]]

/-- `file.path.split('/').filter(part => part.length > 0)` of `buildFileTree`. -/
def pathParts (path : String) : List String :=
  ((splitChar '/' path.data).filter (fun part => decide (0 < part.length))).map String.mk

/-- The folder lookup of `buildFileTree` restricted to one sibling level.  The
JS code consults a global `folderMap`, but a folder node with path
`acc ++ "/" ++ part` can only ever live in the level reached by descending the
segment chain of `acc` (every created folder is pushed into the level current
at creation, whose path is its own path minus the final segment), so the map
lookup and the level-local lookup agree. -/
def hasFolder (level : List FileNode) (path : String) : Bool :=
  level.any (fun n =>
    match n with
    | .folder _ p _ => p == path
    | .file .. => false)

mutual
/-- The per-file insertion loop of `buildFileTree`: walk the path parts,
create (and sort in) missing folder nodes, and append the file node at the
final level, re-sorting it.  A file with no parts gets the JS `undefined`
name, modelled as `""` (unreachable for well-formed paths). -/
def insertLevel (f : InputFile) (parts : List String) (currentPath : String)
    (level : List FileNode) : List FileNode :=
  match parts with
  | [] => sortLevel (level ++ [.file "" f.path f])
  | [last] => sortLevel (level ++ [.file last f.path f])
  | part :: p2 :: rest =>
    let folderPath := currentPath ++ "/" ++ part
    let level1 := if hasFolder level folderPath then level
                  else sortLevel (level ++ [.folder part folderPath []])
    level1.map (descend f (p2 :: rest) folderPath)
termination_by 2 * parts.length

/-- Descend into the folder node carrying the given path, leaving every other
node untouched. -/
def descend (f : InputFile) (rest : List String) (fp : String) : FileNode → FileNode
  | .folder nm p ch =>
      if p = fp then .folder nm p (insertLevel f rest fp ch) else .folder nm p ch
  | .file nm p g => .file nm p g
termination_by _n => 2 * rest.length + 1
end

/-- `buildFileTree` of the artifacts browser: sort the files by path, then
insert each into the forest. -/
def buildFileTree (files : List InputFile) : List FileNode :=
  (sortFiles files).foldl (fun tree f => insertLevel f (pathParts f.path) "" tree) []

/-- Number of file nodes with the given path in a forest. -/
def countFileNodes (p : String) : List FileNode → Nat
  | [] => 0
  | .file _ fp _ :: t => (if fp = p then 1 else 0) + countFileNodes p t
  | .folder _ _ ch :: t => countFileNodes p ch + countFileNodes p t

/-- Number of folder nodes with the given path in a forest. -/
def countFolderNodes (p : String) : List FileNode → Nat
  | [] => 0
  | .file _ _ _ :: t => countFolderNodes p t
  | .folder _ fp ch :: t => (if fp = p then 1 else 0) + countFolderNodes p ch + countFolderNodes p t

/-- Boolean pairwise ordering of one sibling level under `nodeLe`: every
folder node precedes every file node and same-type siblings ascend by name. -/
def pairwiseLeB : List FileNode → Bool
  | [] => true
  | a :: t => t.all (fun b => nodeLe a b) && pairwiseLeB t

/-- Every sibling level below the top is pairwise ordered. -/
def forestOrdered : List FileNode → Bool
  | [] => true
  | .file _ _ _ :: t => forestOrdered t
  | .folder _ _ ch :: t => pairwiseLeB ch && forestOrdered ch && forestOrdered t

/-- The paths of the folder nodes of one level. -/
def folderPaths (level : List FileNode) : List String :=
  level.filterMap (fun n =>
    match n with
    | .folder _ p _ => some p
    | .file .. => none)

/-- Canonical-shape invariant of the forests `buildFileTree` builds, relative
to the path of the enclosing level: every folder node's path extends the level
path by one non-empty slash-free segment (its name), and its children satisfy
the same invariant below it, with folder paths unique per level. -/
def CanonAll (acc : String) : List FileNode → Prop
  | [] => True
  | .file _ _ _ :: t => CanonAll acc t
  | .folder nm p ch :: t =>
      p = acc ++ "/" ++ nm ∧ nm ≠ "" ∧ '/' ∉ nm.data ∧
      (folderPaths ch).Nodup ∧ CanonAll p ch ∧ CanonAll acc t

/-- A canonical level: unique folder paths plus the node-wise invariant. -/
def CanonLevel (acc : String) (l : List FileNode) : Prop :=
  (folderPaths l).Nodup ∧ CanonAll acc l

/-- Join path segments onto a base path the way `buildFileTree` accumulates
`currentPath += '/' + folderName`. -/
def joinFrom (acc : String) (segs : List String) : String :=
  segs.foldl (fun a s => a ++ "/" ++ s) acc

/-- The absolute path spelled by a list of segments. -/
def joinSegs (segs : List String) : String :=
  joinFrom "" segs

/-- The folder paths the insertion loop visits for a given part list: all
strict prefixes of the part chain. -/
def chainPaths (acc : String) : List String → List String
  | [] => []
  | [_] => []
  | part :: p2 :: rest => (acc ++ "/" ++ part) :: chainPaths (acc ++ "/" ++ part) (p2 :: rest)

/-- `d` lies strictly inside the folder `p`: `p ++ "/"` is a proper prefix. -/
def StrictUnder (p d : String) : Prop :=
  p.data ++ ['/'] <+: d.data

/-- A well-formed absolute slash-separated path: a non-empty chain of
non-empty slash-free segments. -/
def IsWfPath (p : String) : Prop :=
  ∃ segs : List String, segs ≠ [] ∧ (∀ s ∈ segs, s ≠ "" ∧ '/' ∉ s.data) ∧ p = joinSegs segs

theorem nodeLe_total (a b : FileNode) : (nodeLe a b || nodeLe b a) = true := by
  cases a <;> cases b <;>
    simp [nodeLe, Bool.or_eq_true, decide_eq_true_eq] <;>
    exact le_total _ _

theorem nodeLe_trans (a b c : FileNode) (h1 : nodeLe a b = true) (h2 : nodeLe b c = true) :
    nodeLe a c = true := by
  cases a <;> cases b <;> cases c <;>
    simp [nodeLe, decide_eq_true_eq] at * <;>
    exact le_trans h1 h2

theorem pairwiseLeB_iff (l : List FileNode) :
    pairwiseLeB l = true ↔ l.Pairwise (fun a b => nodeLe a b = true) := by
  induction l with
  | nil => simp [pairwiseLeB]
  | cons a t ih =>
    simp [pairwiseLeB, List.pairwise_cons, ih, List.all_eq_true, Bool.and_eq_true, and_comm]

theorem sortLevel_perm (l : List FileNode) : (sortLevel l).Perm l :=
  List.mergeSort_perm l nodeLe

theorem pairwiseLeB_sortLevel (l : List FileNode) : pairwiseLeB (sortLevel l) = true :=
  (pairwiseLeB_iff _).mpr (List.sorted_mergeSort nodeLe_trans nodeLe_total l)

/-- Per-node file-node count. -/
def countFileNode1 (p : String) (n : FileNode) : Nat := countFileNodes p [n]

/-- Per-node folder-node count. -/
def countFolderNode1 (p : String) (n : FileNode) : Nat := countFolderNodes p [n]

theorem countFileNodes_cons (p : String) (x : FileNode) (t : List FileNode) :
    countFileNodes p (x :: t) = countFileNode1 p x + countFileNodes p t := by
  cases x <;> simp [countFileNodes, countFileNode1]

theorem countFolderNodes_cons (p : String) (x : FileNode) (t : List FileNode) :
    countFolderNodes p (x :: t) = countFolderNode1 p x + countFolderNodes p t := by
  cases x <;> simp [countFolderNodes, countFolderNode1]

theorem countFileNodes_append (p : String) (l1 l2 : List FileNode) :
    countFileNodes p (l1 ++ l2) = countFileNodes p l1 + countFileNodes p l2 := by
  induction l1 with
  | nil => simp [countFileNodes]
  | cons x t ih =>
    rw [List.cons_append, countFileNodes_cons, countFileNodes_cons, ih]
    omega

theorem countFolderNodes_append (p : String) (l1 l2 : List FileNode) :
    countFolderNodes p (l1 ++ l2) = countFolderNodes p l1 + countFolderNodes p l2 := by
  induction l1 with
  | nil => simp [countFolderNodes]
  | cons x t ih =>
    rw [List.cons_append, countFolderNodes_cons, countFolderNodes_cons, ih]
    omega

theorem countFileNodes_eq_sum (p : String) (l : List FileNode) :
    countFileNodes p l = (l.map (countFileNode1 p)).sum := by
  induction l with
  | nil => simp [countFileNodes]
  | cons x t ih => rw [countFileNodes_cons, List.map_cons, List.sum_cons, ih]

theorem countFolderNodes_eq_sum (p : String) (l : List FileNode) :
    countFolderNodes p l = (l.map (countFolderNode1 p)).sum := by
  induction l with
  | nil => simp [countFolderNodes]
  | cons x t ih => rw [countFolderNodes_cons, List.map_cons, List.sum_cons, ih]

theorem countFileNodes_perm (p : String) {l1 l2 : List FileNode} (h : l1.Perm l2) :
    countFileNodes p l1 = countFileNodes p l2 := by
  rw [countFileNodes_eq_sum, countFileNodes_eq_sum]
  exact (h.map (countFileNode1 p)).sum_eq

theorem countFolderNodes_perm (p : String) {l1 l2 : List FileNode} (h : l1.Perm l2) :
    countFolderNodes p l1 = countFolderNodes p l2 := by
  rw [countFolderNodes_eq_sum, countFolderNodes_eq_sum]
  exact (h.map (countFolderNode1 p)).sum_eq

theorem folderPaths_append (l1 l2 : List FileNode) :
    folderPaths (l1 ++ l2) = folderPaths l1 ++ folderPaths l2 :=
  List.filterMap_append _ _ _

theorem folderPaths_perm {l1 l2 : List FileNode} (h : l1.Perm l2) :
    (folderPaths l1).Perm (folderPaths l2) :=
  h.filterMap _

theorem folderPaths_cons_folder (nm p : String) (ch t : List FileNode) :
    folderPaths (.folder nm p ch :: t) = p :: folderPaths t := rfl

theorem folderPaths_cons_file (nm p : String) (g : InputFile) (t : List FileNode) :
    folderPaths (.file nm p g :: t) = folderPaths t := rfl

theorem hasFolder_cons_folder (nm q : String) (ch t : List FileNode) (p : String) :
    hasFolder (.folder nm q ch :: t) p = ((q == p) || hasFolder t p) := by
  simp [hasFolder, List.any_cons]

theorem hasFolder_cons_file (nm q : String) (g : InputFile) (t : List FileNode) (p : String) :
    hasFolder (.file nm q g :: t) p = hasFolder t p := by
  simp [hasFolder, List.any_cons]

theorem hasFolder_iff_mem (l : List FileNode) (p : String) :
    hasFolder l p = true ↔ p ∈ folderPaths l := by
  induction l with
  | nil => simp [hasFolder, folderPaths]
  | cons x t ih =>
    cases x with
    | folder nm q ch =>
      rw [hasFolder_cons_folder, folderPaths_cons_folder]
      simp only [Bool.or_eq_true, beq_iff_eq, ih, List.mem_cons]
      constructor
      · rintro (h | h)
        · exact Or.inl h.symm
        · exact Or.inr h
      · rintro (h | h)
        · exact Or.inl h.symm
        · exact Or.inr h
    | file nm q g =>
      rw [hasFolder_cons_file, folderPaths_cons_file]
      exact ih

theorem hasFolder_perm {l1 l2 : List FileNode} (h : l1.Perm l2) (p : String) :
    hasFolder l1 p = hasFolder l2 p := by
  rw [Bool.eq_iff_iff, hasFolder_iff_mem, hasFolder_iff_mem]
  exact (folderPaths_perm h).mem_iff

/-- Per-node canonical-shape invariant. -/
def CanonNode1 (acc : String) (n : FileNode) : Prop := CanonAll acc [n]

theorem CanonAll_cons (acc : String) (x : FileNode) (t : List FileNode) :
    CanonAll acc (x :: t) ↔ CanonNode1 acc x ∧ CanonAll acc t := by
  cases x <;> simp [CanonAll, CanonNode1] <;> tauto

theorem CanonAll_append (acc : String) (l1 l2 : List FileNode) :
    CanonAll acc (l1 ++ l2) ↔ CanonAll acc l1 ∧ CanonAll acc l2 := by
  induction l1 with
  | nil => simp [CanonAll]
  | cons x t ih =>
    rw [List.cons_append, CanonAll_cons, CanonAll_cons, ih]
    tauto

theorem CanonAll_iff_forall (acc : String) (l : List FileNode) :
    CanonAll acc l ↔ ∀ n ∈ l, CanonNode1 acc n := by
  induction l with
  | nil => simp [CanonAll]
  | cons x t ih => simp [CanonAll_cons, ih]

theorem CanonAll_perm (acc : String) {l1 l2 : List FileNode} (h : l1.Perm l2) :
    CanonAll acc l1 ↔ CanonAll acc l2 := by
  rw [CanonAll_iff_forall, CanonAll_iff_forall]
  exact ⟨fun ha n hn => ha n (h.mem_iff.mpr hn), fun ha n hn => ha n (h.mem_iff.mp hn)⟩

theorem CanonLevel_perm (acc : String) {l1 l2 : List FileNode} (h : l1.Perm l2) :
    CanonLevel acc l1 ↔ CanonLevel acc l2 :=
  and_congr (folderPaths_perm h).nodup_iff (CanonAll_perm acc h)

/-- Per-node ordering invariant. -/
def forestOrdered1 (n : FileNode) : Bool := forestOrdered [n]

theorem forestOrdered_cons (x : FileNode) (t : List FileNode) :
    forestOrdered (x :: t) = (forestOrdered1 x && forestOrdered t) := by
  cases x <;> simp [forestOrdered, forestOrdered1, Bool.and_assoc]

theorem forestOrdered_eq_all (l : List FileNode) :
    forestOrdered l = l.all forestOrdered1 := by
  induction l with
  | nil => simp [forestOrdered]
  | cons x t ih => rw [forestOrdered_cons, List.all_cons, ih]

theorem forestOrdered_append (l1 l2 : List FileNode) :
    forestOrdered (l1 ++ l2) = (forestOrdered l1 && forestOrdered l2) := by
  rw [forestOrdered_eq_all, forestOrdered_eq_all, forestOrdered_eq_all, List.all_append]

theorem forestOrdered_perm {l1 l2 : List FileNode} (h : l1.Perm l2) :
    forestOrdered l1 = forestOrdered l2 := by
  rw [forestOrdered_eq_all, forestOrdered_eq_all, Bool.eq_iff_iff,
    List.all_eq_true, List.all_eq_true]
  exact ⟨fun ha n hn => ha n (h.mem_iff.mpr hn), fun ha n hn => ha n (h.mem_iff.mp hn)⟩

theorem nodeLe_descend (f : InputFile) (rest : List String) (fp : String) (a b : FileNode) :
    nodeLe (descend f rest fp a) (descend f rest fp b) = nodeLe a b := by
  cases a <;> cases b <;> simp only [descend] <;>
    repeat' first
      | rfl
      | split

theorem pairwiseLeB_map_descend (f : InputFile) (rest : List String) (fp : String)
    (l : List FileNode) :
    pairwiseLeB (l.map (descend f rest fp)) = pairwiseLeB l := by
  induction l with
  | nil => rfl
  | cons a t ih =>
    simp only [List.map_cons, pairwiseLeB, List.all_map]
    rw [ih]
    congr 1
    congr 1
    funext b
    exact nodeLe_descend f rest fp a b

theorem exists_split_of_hasFolder (l : List FileNode) (fp : String) (h : hasFolder l fp = true) :
    ∃ l1 nm ch l2, l = l1 ++ .folder nm fp ch :: l2 ∧ hasFolder l1 fp = false := by
  induction l with
  | nil => simp [hasFolder] at h
  | cons x t ih =>
    cases x with
    | folder nm q ch =>
      by_cases hq : q = fp
      · subst hq
        exact ⟨[], nm, ch, t, rfl, by simp [hasFolder]⟩
      · rw [hasFolder_cons_folder] at h
        rw [beq_eq_false_iff_ne.mpr hq, Bool.false_or] at h
        obtain ⟨l1, nm1, ch1, l2, heq, hno⟩ := ih h
        refine ⟨.folder nm q ch :: l1, nm1, ch1, l2, by rw [heq]; rfl, ?_⟩
        rw [hasFolder_cons_folder, beq_eq_false_iff_ne.mpr hq, Bool.false_or]
        exact hno
    | file nm q g =>
      rw [hasFolder_cons_file] at h
      obtain ⟨l1, nm1, ch1, l2, heq, hno⟩ := ih h
      refine ⟨.file nm q g :: l1, nm1, ch1, l2, by rw [heq]; rfl, ?_⟩
      rw [hasFolder_cons_file]
      exact hno

theorem no_fp_right_of_nodup (l1 l2 : List FileNode) (nm fp : String) (ch : List FileNode)
    (h : (folderPaths (l1 ++ .folder nm fp ch :: l2)).Nodup) :
    hasFolder l2 fp = false := by
  rw [folderPaths_append, folderPaths_cons_folder] at h
  have hmem : fp ∉ folderPaths l2 := (List.nodup_cons.mp (List.nodup_append.mp h).2.1).1
  rw [Bool.eq_false_iff]
  intro hcon
  exact hmem ((hasFolder_iff_mem l2 fp).mp hcon)

theorem descend_map_eq_self (f : InputFile) (rest : List String) (fp : String)
    (l : List FileNode) (h : hasFolder l fp = false) :
    l.map (descend f rest fp) = l := by
  induction l with
  | nil => rfl
  | cons x t ih =>
    cases x with
    | folder nm q ch =>
      rw [hasFolder_cons_folder] at h
      have hq : q ≠ fp := by
        intro he
        rw [beq_iff_eq.mpr he] at h
        simp at h
      rw [beq_eq_false_iff_ne.mpr hq, Bool.false_or] at h
      simp [descend, hq, ih h]
    | file nm q g =>
      rw [hasFolder_cons_file] at h
      simp [descend, ih h]

theorem descend_decomposition (f : InputFile) (rest : List String) (fp : String)
    (l1 l2 : List FileNode) (nm : String) (ch : List FileNode)
    (h1 : hasFolder l1 fp = false) (h2 : hasFolder l2 fp = false) :
    (l1 ++ .folder nm fp ch :: l2).map (descend f rest fp) =
      l1 ++ .folder nm fp (insertLevel f rest fp ch) :: l2 := by
  rw [List.map_append, List.map_cons, descend_map_eq_self f rest fp l1 h1,
    descend_map_eq_self f rest fp l2 h2]
  simp [descend]

theorem insertLevel_step_eq (f : InputFile) (part p2 : String) (rest : List String)
    (acc : String) (level : List FileNode) :
    insertLevel f (part :: p2 :: rest) acc level =
      (if hasFolder level (acc ++ "/" ++ part) then level
       else sortLevel (level ++ [.folder part (acc ++ "/" ++ part) []])).map
        (descend f (p2 :: rest) (acc ++ "/" ++ part)) := by
  rw [insertLevel]

theorem seg_append_inj {acc s nm : String} (h : acc ++ "/" ++ s = acc ++ "/" ++ nm) : s = nm := by
  have hd := congrArg String.data h
  simp only [String.data_append] at hd
  exact String.ext (List.append_cancel_left hd)

theorem strictUnder_extend (p nm : String) : StrictUnder p (p ++ "/" ++ nm) := by
  unfold StrictUnder
  simp only [String.data_append]
  rw [List.append_assoc]
  refine (List.prefix_append_right_inj p.data).mpr ?_
  show ['/'] <+: ['/'] ++ nm.data
  exact List.prefix_append ['/'] nm.data

theorem strictUnder_of_under_extend (p nm d : String)
    (h : StrictUnder (p ++ "/" ++ nm) d) : StrictUnder p d := by
  refine List.IsPrefix.trans ?_ h
  simp only [String.data_append]
  rw [List.append_assoc, List.append_assoc]
  refine (List.prefix_append_right_inj p.data).mpr ?_
  show ['/'] <+: ['/'] ++ (nm.data ++ ['/'])
  exact List.prefix_append ['/'] _

theorem strictUnder_ne {p d : String} (h : StrictUnder p d) : d ≠ p := by
  intro he
  subst he
  have := h.length_le
  simp at this

theorem seg_under_mem {accL nmL sL : List Char}
    (h : ((accL ++ ['/']) ++ nmL) ++ ['/'] <+: (accL ++ ['/']) ++ sL) : '/' ∈ sL := by
  rw [List.append_assoc (accL ++ ['/'])] at h
  have h2 := (List.prefix_append_right_inj (accL ++ ['/'])).mp h
  exact h2.subset (List.mem_append_right _ (List.mem_singleton_self '/'))

theorem strictUnder_seg_absurd (acc s nm : String) (hs : '/' ∉ s.data)
    (h : StrictUnder (acc ++ "/" ++ nm) (acc ++ "/" ++ s)) : False := by
  unfold StrictUnder at h
  simp only [String.data_append] at h
  exact hs (seg_under_mem h)

theorem seg_slash_prefix_eq {sL nmL : List Char} (hnm : '/' ∉ nmL)
    (h : sL ++ ['/'] <+: nmL ++ ['/']) : sL = nmL := by
  obtain ⟨t, ht⟩ := h
  cases t with
  | nil =>
    rw [List.append_nil] at ht
    exact (List.append_left_inj ['/']).mp ht
  | cons a t1 =>
    exfalso
    apply hnm
    have hd := congrArg List.dropLast ht
    rw [List.dropLast_append_of_ne_nil (l := a :: t1) (sL ++ ['/']) (by simp),
      List.dropLast_append_of_ne_nil (l := ['/']) nmL (by simp)] at hd
    simp only [List.dropLast_single, List.append_nil] at hd
    rw [← hd]
    exact List.mem_append_left _ (List.mem_append_right _ (List.mem_singleton_self '/'))

theorem chainPaths_under : ∀ (parts : List String) (b d : String),
    d ∈ chainPaths b parts → StrictUnder b d
  | [], _, _, h => by simp [chainPaths] at h
  | [x], _, _, h => by simp [chainPaths] at h
  | part :: p2 :: rest, b, d, h => by
    rw [chainPaths] at h
    rcases List.mem_cons.mp h with h | h
    · subst h
      exact strictUnder_extend b part
    · exact strictUnder_of_under_extend b part d (chainPaths_under (p2 :: rest) (b ++ "/" ++ part) d h)

theorem chainPaths_shape (parts : List String) (b d : String)
    (hw : ∀ s ∈ parts, s ≠ "" ∧ '/' ∉ s.data) (h : d ∈ chainPaths b parts) :
    ∃ s, s ≠ "" ∧ '/' ∉ s.data ∧ (d = b ++ "/" ++ s ∨ StrictUnder (b ++ "/" ++ s) d) := by
  match parts, h with
  | part :: p2 :: rest, h =>
    rw [chainPaths] at h
    rcases List.mem_cons.mp h with h | h
    · exact ⟨part, (hw part (List.mem_cons_self _ _)).1, (hw part (List.mem_cons_self _ _)).2,
        Or.inl h⟩
    · exact ⟨part, (hw part (List.mem_cons_self _ _)).1, (hw part (List.mem_cons_self _ _)).2,
        Or.inr (chainPaths_under (p2 :: rest) (b ++ "/" ++ part) d h)⟩

theorem joinFrom_cons (acc p : String) (segs : List String) :
    joinFrom acc (p :: segs) = joinFrom (acc ++ "/" ++ p) segs := rfl

theorem mem_chainPaths : ∀ (parts : List String) (acc : String) (k : Nat),
    1 ≤ k → k + 1 ≤ parts.length → joinFrom acc (parts.take k) ∈ chainPaths acc parts
  | [], _, k, h1, h2 => by simp at h2
  | [x], _, k, h1, h2 => by simp at h2; omega
  | part :: p2 :: rest, acc, k, h1, h2 => by
    match k, h1 with
    | 1, _ =>
      rw [chainPaths]
      exact List.mem_cons_self _ _
    | (j+2), _ =>
      rw [chainPaths]
      rw [List.take_succ_cons, joinFrom_cons]
      refine List.mem_cons_of_mem _ ?_
      refine mem_chainPaths (p2 :: rest) (acc ++ "/" ++ part) (j+1) (by omega) ?_
      simp only [List.length_cons] at h2 ⊢
      omega

theorem splitChar_ne_nil (sep : Char) (l : List Char) : splitChar sep l ≠ [] := by
  induction l with
  | nil => simp [splitChar]
  | cons c t ih =>
    rw [show splitChar sep (c :: t) =
      (match splitChar sep t with
       | h :: t1 => if c = sep then [] :: h :: t1 else (c :: h) :: t1
       | [] => [[c]]) from rfl]
    match hr : splitChar sep t with
    | [] => simp
    | h0 :: t0 =>
      by_cases hc : c = sep <;> simp [hc]

theorem splitChar_sep_not_mem (sep : Char) (l : List Char) :
    ∀ part ∈ splitChar sep l, sep ∉ part := by
  induction l with
  | nil =>
    intro part h
    simp [splitChar] at h
    subst h
    simp
  | cons c t ih =>
    intro part h
    rw [show splitChar sep (c :: t) =
      (match splitChar sep t with
       | h :: t1 => if c = sep then [] :: h :: t1 else (c :: h) :: t1
       | [] => [[c]]) from rfl] at h
    match hr : splitChar sep t with
    | [] => exact absurd hr (splitChar_ne_nil sep t)
    | h0 :: t0 =>
      rw [hr] at h
      have h2 : part ∈ if c = sep then [] :: h0 :: t0 else (c :: h0) :: t0 := h
      by_cases hc : c = sep
      · rw [if_pos hc] at h2
        rcases List.mem_cons.mp h2 with h3 | h3
        · subst h3
          simp
        · exact ih part (hr ▸ h3)
      · rw [if_neg hc] at h2
        rcases List.mem_cons.mp h2 with h3 | h3
        · subst h3
          intro hmem
          rcases List.mem_cons.mp hmem with hmem | hmem
          · exact hc hmem.symm
          · exact ih h0 (hr ▸ List.mem_cons_self _ _) hmem
        · exact ih part (hr ▸ List.mem_cons_of_mem _ h3)

theorem pathParts_wf (p : String) : ∀ s ∈ pathParts p, s ≠ "" ∧ '/' ∉ s.data := by
  intro s hs
  unfold pathParts at hs
  obtain ⟨part, hpart, hmk⟩ := List.mem_map.mp hs
  have hfil := List.mem_filter.mp hpart
  constructor
  · intro he
    have hdata : part = [] := by
      have h3 := congrArg String.data hmk
      rw [he] at h3
      simpa using h3
    have h4 := of_decide_eq_true hfil.2
    rw [hdata] at h4
    simp at h4
  · have hnot := splitChar_sep_not_mem '/' p.data part hfil.1
    have hsd : s.data = part := by
      have h3 := congrArg String.data hmk
      simpa using h3.symm
    rw [hsd]
    exact hnot

theorem countFolder_shape : ∀ (l : List FileNode) (acc : String), CanonAll acc l →
    ∀ d : String, countFolderNodes d l ≠ 0 →
    ∃ nm, nm ≠ "" ∧ '/' ∉ nm.data ∧ (d = acc ++ "/" ++ nm ∨ StrictUnder (acc ++ "/" ++ nm) d)
  | [], _, _, d, h => by simp [countFolderNodes] at h
  | .file nm1 p1 g :: t, acc, hc, d, h =>
    countFolder_shape t acc (by simpa [CanonAll] using hc) d
      (by simpa [countFolderNodes] using h)
  | .folder nm1 p1 ch :: t, acc, hc, d, h => by
    rw [show CanonAll acc (.folder nm1 p1 ch :: t) =
      (p1 = acc ++ "/" ++ nm1 ∧ nm1 ≠ "" ∧ '/' ∉ nm1.data ∧
       (folderPaths ch).Nodup ∧ CanonAll p1 ch ∧ CanonAll acc t) from by simp [CanonAll]] at hc
    obtain ⟨hp1, hnm1, hsl1, hnd, hcch, hct⟩ := hc
    by_cases hpd : p1 = d
    · exact ⟨nm1, hnm1, hsl1, Or.inl (by rw [← hpd, hp1])⟩
    · have h2 : countFolderNodes d ch ≠ 0 ∨ countFolderNodes d t ≠ 0 := by
        by_contra hcon
        push_neg at hcon
        simp [countFolderNodes, hpd, hcon.1, hcon.2] at h
      rcases h2 with h2 | h2
      · obtain ⟨nm2, _, _, hd2⟩ := countFolder_shape ch p1 hcch d h2
        refine ⟨nm1, hnm1, hsl1, Or.inr ?_⟩
        have hup1 : StrictUnder p1 d := by
          rcases hd2 with hd2 | hd2
          · rw [hd2]
            exact strictUnder_extend p1 nm2
          · exact strictUnder_of_under_extend p1 nm2 d hd2
        rw [← hp1]
        exact hup1
      · exact countFolder_shape t acc hct d h2
termination_by l => sizeOf l
decreasing_by all_goals (simp_wf; try omega)

theorem seg_under_under_eq (acc s nm d : String) (hs : '/' ∉ s.data) (hnm : '/' ∉ nm.data)
    (h1 : StrictUnder (acc ++ "/" ++ s) d) (h2 : StrictUnder (acc ++ "/" ++ nm) d) :
    s = nm := by
  unfold StrictUnder at h1 h2
  simp only [String.data_append] at h1 h2
  rcases List.prefix_or_prefix_of_prefix h1 h2 with h | h
  · refine String.ext (seg_slash_prefix_eq hnm ?_)
    simp only [List.append_assoc] at h
    exact (List.prefix_append_right_inj ['/']).mp ((List.prefix_append_right_inj acc.data).mp h)
  · refine String.ext (seg_slash_prefix_eq hs ?_).symm
    simp only [List.append_assoc] at h
    exact (List.prefix_append_right_inj ['/']).mp ((List.prefix_append_right_inj acc.data).mp h)

theorem countFolder_canon (l : List FileNode) (acc : String) (hnd : (folderPaths l).Nodup)
    (hca : CanonAll acc l) (s : String) (hs2 : '/' ∉ s.data) :
    countFolderNodes (acc ++ "/" ++ s) l = if hasFolder l (acc ++ "/" ++ s) then 1 else 0 := by
  induction l with
  | nil => simp [countFolderNodes, hasFolder]
  | cons x t ih =>
    cases x with
    | file nm1 p1 g =>
      rw [hasFolder_cons_file]
      rw [show countFolderNodes (acc ++ "/" ++ s) (.file nm1 p1 g :: t) =
        countFolderNodes (acc ++ "/" ++ s) t from by simp [countFolderNodes]]
      exact ih (by simpa [folderPaths_cons_file] using hnd) (by simpa [CanonAll] using hca)
    | folder nm1 p1 ch =>
      rw [show CanonAll acc (.folder nm1 p1 ch :: t) =
        (p1 = acc ++ "/" ++ nm1 ∧ nm1 ≠ "" ∧ '/' ∉ nm1.data ∧
         (folderPaths ch).Nodup ∧ CanonAll p1 ch ∧ CanonAll acc t) from by simp [CanonAll]] at hca
      obtain ⟨hp1, hnm1, hsl1, hndch, hcch, hct⟩ := hca
      rw [folderPaths_cons_folder] at hnd
      have hchz : countFolderNodes (acc ++ "/" ++ s) ch = 0 := by
        by_contra hcon
        obtain ⟨nm2, _, _, hd2⟩ := countFolder_shape ch p1 hcch _ hcon
        have hup1 : StrictUnder p1 (acc ++ "/" ++ s) := by
          rcases hd2 with hd2 | hd2
          · rw [hd2]
            exact strictUnder_extend p1 nm2
          · exact strictUnder_of_under_extend p1 nm2 _ hd2
        rw [hp1] at hup1
        exact strictUnder_seg_absurd acc s nm1 hs2 hup1
      rw [show countFolderNodes (acc ++ "/" ++ s) (.folder nm1 p1 ch :: t) =
        (if p1 = acc ++ "/" ++ s then 1 else 0) + countFolderNodes (acc ++ "/" ++ s) ch +
          countFolderNodes (acc ++ "/" ++ s) t from by simp [countFolderNodes]]
      rw [hasFolder_cons_folder, hchz]
      by_cases hpd : p1 = acc ++ "/" ++ s
      · have htz : hasFolder t (acc ++ "/" ++ s) = false := by
          rw [Bool.eq_false_iff]
          intro hcon
          exact (List.nodup_cons.mp hnd).1 (hpd ▸ (hasFolder_iff_mem t _).mp hcon)
        rw [ih (List.nodup_cons.mp hnd).2 hct, htz]
        simp [hpd, beq_iff_eq]
      · rw [ih (List.nodup_cons.mp hnd).2 hct]
        simp [hpd, beq_eq_false_iff_ne.mpr hpd]

theorem countFolder_zero_under (l : List FileNode) (acc : String) (hca : CanonAll acc l)
    (s : String) (hs2 : '/' ∉ s.data)
    (hno : hasFolder l (acc ++ "/" ++ s) = false)
    (d : String) (hd : StrictUnder (acc ++ "/" ++ s) d) :
    countFolderNodes d l = 0 := by
  induction l with
  | nil => simp [countFolderNodes]
  | cons x t ih =>
    cases x with
    | file nm1 p1 g =>
      rw [show countFolderNodes d (.file nm1 p1 g :: t) = countFolderNodes d t from by
        simp [countFolderNodes]]
      exact ih (by simpa [CanonAll] using hca) (by simpa [hasFolder_cons_file] using hno)
    | folder nm1 p1 ch =>
      rw [show CanonAll acc (.folder nm1 p1 ch :: t) =
        (p1 = acc ++ "/" ++ nm1 ∧ nm1 ≠ "" ∧ '/' ∉ nm1.data ∧
         (folderPaths ch).Nodup ∧ CanonAll p1 ch ∧ CanonAll acc t) from by simp [CanonAll]] at hca
      obtain ⟨hp1, hnm1, hsl1, hndch, hcch, hct⟩ := hca
      rw [hasFolder_cons_folder] at hno
      have hp1ne : p1 ≠ acc ++ "/" ++ s := by
        intro he
        rw [beq_iff_eq.mpr he] at hno
        simp at hno
      rw [beq_eq_false_iff_ne.mpr hp1ne, Bool.false_or] at hno
      have hnm1s : nm1 ≠ s := by
        intro he
        exact hp1ne (by rw [hp1, he])
      have hpd : p1 ≠ d := by
        intro he
        rw [← he, hp1] at hd
        exact strictUnder_seg_absurd acc nm1 s hsl1 hd
      have hchz : countFolderNodes d ch = 0 := by
        by_contra hcon
        obtain ⟨nm2, _, _, hd2⟩ := countFolder_shape ch p1 hcch d hcon
        have hup1 : StrictUnder p1 d := by
          rcases hd2 with hd2 | hd2
          · rw [hd2]
            exact strictUnder_extend p1 nm2
          · exact strictUnder_of_under_extend p1 nm2 d hd2
        rw [hp1] at hup1
        exact hnm1s (seg_under_under_eq acc nm1 s d hsl1 hs2 hup1 hd)
      rw [show countFolderNodes d (.folder nm1 p1 ch :: t) =
        (if p1 = d then 1 else 0) + countFolderNodes d ch + countFolderNodes d t from by
        simp [countFolderNodes]]
      rw [hchz, if_neg hpd, ih hct hno]

theorem CanonNode1_folder (acc nm p : String) (ch : List FileNode) :
    CanonNode1 acc (.folder nm p ch) ↔
      p = acc ++ "/" ++ nm ∧ nm ≠ "" ∧ '/' ∉ nm.data ∧
      (folderPaths ch).Nodup ∧ CanonAll p ch := by
  simp [CanonNode1, CanonAll]

theorem level1_canon (acc part : String) (level : List FileNode)
    (hc : CanonLevel acc level) (hp1 : part ≠ "") (hp2 : '/' ∉ part.data) :
    CanonLevel acc (if hasFolder level (acc ++ "/" ++ part) then level
      else sortLevel (level ++ [.folder part (acc ++ "/" ++ part) []])) := by
  split
  · exact hc
  · rename_i hno
    rw [CanonLevel_perm acc (sortLevel_perm _)]
    constructor
    · rw [folderPaths_append, folderPaths_cons_folder]
      rw [List.nodup_append]
      refine ⟨hc.1, by simp [folderPaths], ?_⟩
      intro x hx hx2
      have hxd : x = acc ++ "/" ++ part := by
        simpa [folderPaths] using hx2
      exact hno ((hasFolder_iff_mem _ _).mpr (hxd ▸ hx))
    · rw [CanonAll_append]
      refine ⟨hc.2, ?_⟩
      simp [CanonAll, folderPaths, hp1, hp2]

theorem level1_hasFolder (acc part : String) (level : List FileNode) :
    hasFolder (if hasFolder level (acc ++ "/" ++ part) then level
      else sortLevel (level ++ [.folder part (acc ++ "/" ++ part) []]))
      (acc ++ "/" ++ part) = true := by
  split
  · rename_i h
    exact h
  · rw [hasFolder_perm (sortLevel_perm _)]
    refine (hasFolder_iff_mem _ _).mpr ?_
    rw [folderPaths_append, folderPaths_cons_folder]
    exact List.mem_append_right _ (List.mem_cons_self _ _)

theorem level1_countFile (acc part : String) (level : List FileNode) (q : String) :
    countFileNodes q (if hasFolder level (acc ++ "/" ++ part) then level
      else sortLevel (level ++ [.folder part (acc ++ "/" ++ part) []])) =
      countFileNodes q level := by
  split
  · rfl
  · rw [countFileNodes_perm q (sortLevel_perm _), countFileNodes_append]
    simp [countFileNodes]

theorem level1_countFolder (acc part : String) (level : List FileNode) (d : String)
    (hd : acc ++ "/" ++ part ≠ d) :
    countFolderNodes d (if hasFolder level (acc ++ "/" ++ part) then level
      else sortLevel (level ++ [.folder part (acc ++ "/" ++ part) []])) =
      countFolderNodes d level := by
  split
  · rfl
  · rw [countFolderNodes_perm d (sortLevel_perm _), countFolderNodes_append]
    simp [countFolderNodes, hd]

theorem level1_ordered (acc part : String) (level : List FileNode)
    (h1 : pairwiseLeB level = true) (h2 : forestOrdered level = true) :
    pairwiseLeB (if hasFolder level (acc ++ "/" ++ part) then level
      else sortLevel (level ++ [.folder part (acc ++ "/" ++ part) []])) = true ∧
    forestOrdered (if hasFolder level (acc ++ "/" ++ part) then level
      else sortLevel (level ++ [.folder part (acc ++ "/" ++ part) []])) = true := by
  split
  · exact ⟨h1, h2⟩
  · refine ⟨pairwiseLeB_sortLevel _, ?_⟩
    rw [forestOrdered_perm (sortLevel_perm _), forestOrdered_append, h2]
    simp [forestOrdered, pairwiseLeB]

theorem countFileNode1_folder (q nm fp : String) (x : List FileNode) :
    countFileNode1 q (.folder nm fp x) = countFileNodes q x := by
  simp [countFileNode1, countFileNodes]

theorem countFolderNode1_folder (d nm fp : String) (x : List FileNode) :
    countFolderNode1 d (.folder nm fp x) =
      (if fp = d then 1 else 0) + countFolderNodes d x := by
  simp [countFolderNode1, countFolderNodes]

theorem canon_pieces (acc fp : String) (l1 l2 : List FileNode) (nm : String)
    (ch : List FileNode) (hc : CanonLevel acc (l1 ++ .folder nm fp ch :: l2)) :
    CanonAll acc l1 ∧ CanonAll acc l2 ∧ fp = acc ++ "/" ++ nm ∧ nm ≠ "" ∧
    '/' ∉ nm.data ∧ CanonLevel fp ch := by
  have hca := hc.2
  rw [CanonAll_append, CanonAll_cons] at hca
  have h5 := (CanonNode1_folder acc nm fp ch).mp hca.2.1
  exact ⟨hca.1, hca.2.2, h5.1, h5.2.1, h5.2.2.1, h5.2.2.2.1, h5.2.2.2.2⟩

theorem insert_canon : ∀ (parts : List String) (f : InputFile) (acc : String)
    (level : List FileNode), CanonLevel acc level →
    (∀ s ∈ parts, s ≠ "" ∧ '/' ∉ s.data) →
    CanonLevel acc (insertLevel f parts acc level)
  | [], f, acc, level, hc, _ => by
    rw [insertLevel]
    rw [CanonLevel_perm acc (sortLevel_perm _)]
    constructor
    · rw [folderPaths_append]
      simpa [folderPaths] using hc.1
    · rw [CanonAll_append]
      exact ⟨hc.2, by simp [CanonAll]⟩
  | [last], f, acc, level, hc, _ => by
    rw [insertLevel]
    rw [CanonLevel_perm acc (sortLevel_perm _)]
    constructor
    · rw [folderPaths_append]
      simpa [folderPaths] using hc.1
    · rw [CanonAll_append]
      exact ⟨hc.2, by simp [CanonAll]⟩
  | part :: p2 :: rest, f, acc, level, hc, hw => by
    rw [insertLevel_step_eq]
    have hpw := hw part (List.mem_cons_self _ _)
    have hcl1 := level1_canon acc part level hc hpw.1 hpw.2
    have hhf := level1_hasFolder acc part level
    obtain ⟨l1, nm, ch, l2, hsplit, hnol1⟩ := exists_split_of_hasFolder _ _ hhf
    have hnol2 : hasFolder l2 (acc ++ "/" ++ part) = false :=
      no_fp_right_of_nodup l1 l2 nm _ ch (hsplit ▸ hcl1.1)
    rw [hsplit, descend_decomposition f (p2 :: rest) _ l1 l2 nm ch hnol1 hnol2]
    obtain ⟨hca1, hca2, hfp, hnm1, hnm2, hcch⟩ := canon_pieces acc _ l1 l2 nm ch (hsplit ▸ hcl1)
    have hins := insert_canon (p2 :: rest) f (acc ++ "/" ++ part) ch hcch
      (fun s hs => hw s (List.mem_cons_of_mem _ hs))
    constructor
    · rw [folderPaths_append, folderPaths_cons_folder]
      have := hcl1.1
      rw [hsplit, folderPaths_append, folderPaths_cons_folder] at this
      exact this
    · rw [CanonAll_append, CanonAll_cons]
      refine ⟨hca1, ?_, hca2⟩
      rw [CanonNode1_folder]
      exact ⟨hfp, hnm1, hnm2, hins.1, hins.2⟩

theorem insert_countFile : ∀ (parts : List String) (f : InputFile) (acc : String)
    (level : List FileNode), CanonLevel acc level →
    (∀ s ∈ parts, s ≠ "" ∧ '/' ∉ s.data) →
    ∀ q, countFileNodes q (insertLevel f parts acc level) =
      countFileNodes q level + (if f.path = q then 1 else 0)
  | [], f, acc, level, _, _, q => by
    rw [insertLevel]
    rw [countFileNodes_perm q (sortLevel_perm _), countFileNodes_append]
    simp [countFileNodes]
  | [last], f, acc, level, _, _, q => by
    rw [insertLevel]
    rw [countFileNodes_perm q (sortLevel_perm _), countFileNodes_append]
    simp [countFileNodes]
  | part :: p2 :: rest, f, acc, level, hc, hw, q => by
    rw [insertLevel_step_eq]
    have hpw := hw part (List.mem_cons_self _ _)
    have hcl1 := level1_canon acc part level hc hpw.1 hpw.2
    have hhf := level1_hasFolder acc part level
    obtain ⟨l1, nm, ch, l2, hsplit, hnol1⟩ := exists_split_of_hasFolder _ _ hhf
    have hnol2 : hasFolder l2 (acc ++ "/" ++ part) = false :=
      no_fp_right_of_nodup l1 l2 nm _ ch (hsplit ▸ hcl1.1)
    rw [hsplit, descend_decomposition f (p2 :: rest) _ l1 l2 nm ch hnol1 hnol2]
    obtain ⟨hca1, hca2, hfp, hnm1, hnm2, hcch⟩ := canon_pieces acc _ l1 l2 nm ch (hsplit ▸ hcl1)
    have hins := insert_countFile (p2 :: rest) f (acc ++ "/" ++ part) ch hcch
      (fun s hs => hw s (List.mem_cons_of_mem _ hs)) q
    have hlev : countFileNodes q level =
        countFileNodes q l1 + countFileNodes q ch + countFileNodes q l2 := by
      rw [← level1_countFile acc part level q, hsplit, countFileNodes_append,
        countFileNodes_cons, countFileNode1_folder]
      omega
    rw [countFileNodes_append, countFileNodes_cons, countFileNode1_folder, hins, hlev]
    omega

theorem insert_countFolder : ∀ (parts : List String) (f : InputFile) (acc : String)
    (level : List FileNode), CanonLevel acc level →
    (∀ s ∈ parts, s ≠ "" ∧ '/' ∉ s.data) →
    ∀ d, countFolderNodes d (insertLevel f parts acc level) =
      if d ∈ chainPaths acc parts then 1 else countFolderNodes d level
  | [], f, acc, level, _, _, d => by
    rw [insertLevel, chainPaths]
    rw [countFolderNodes_perm d (sortLevel_perm _), countFolderNodes_append]
    simp [countFolderNodes]
  | [last], f, acc, level, _, _, d => by
    rw [insertLevel, chainPaths]
    rw [countFolderNodes_perm d (sortLevel_perm _), countFolderNodes_append]
    simp [countFolderNodes]
  | part :: p2 :: rest, f, acc, level, hc, hw, d => by
    rw [insertLevel_step_eq, chainPaths]
    have hpw := hw part (List.mem_cons_self _ _)
    have hcl1 := level1_canon acc part level hc hpw.1 hpw.2
    have hhf := level1_hasFolder acc part level
    obtain ⟨l1, nm, ch, l2, hsplit, hnol1⟩ := exists_split_of_hasFolder _ _ hhf
    have hnol2 : hasFolder l2 (acc ++ "/" ++ part) = false :=
      no_fp_right_of_nodup l1 l2 nm _ ch (hsplit ▸ hcl1.1)
    rw [hsplit, descend_decomposition f (p2 :: rest) _ l1 l2 nm ch hnol1 hnol2]
    obtain ⟨hca1, hca2, hfp, hnm1, hnm2, hcch⟩ := canon_pieces acc _ l1 l2 nm ch (hsplit ▸ hcl1)
    have hins := insert_countFolder (p2 :: rest) f (acc ++ "/" ++ part) ch hcch
      (fun s hs => hw s (List.mem_cons_of_mem _ hs)) d
    have hlev1 : countFolderNodes (acc ++ "/" ++ part) (l1 ++ .folder nm (acc ++ "/" ++ part) ch :: l2) = 1 := by
      rw [← hsplit]
      rw [countFolder_canon _ acc hcl1.1 hcl1.2 part hpw.2, if_pos hhf]
    rw [countFolderNodes_append, countFolderNodes_cons, countFolderNode1_folder] at hlev1
    rw [countFolderNodes_append, countFolderNodes_cons, countFolderNode1_folder, hins]
    by_cases hd1 : d = acc ++ "/" ++ part
    · subst hd1
      rw [if_pos (List.mem_cons_self _ _)]
      have hnotmem : acc ++ "/" ++ part ∉ chainPaths (acc ++ "/" ++ part) (p2 :: rest) := by
        intro hmem
        exact strictUnder_ne (chainPaths_under (p2 :: rest) _ _ hmem) rfl
      rw [if_pos rfl] at hlev1
      rw [if_pos rfl, if_neg hnotmem]
      exact hlev1
    · by_cases hd2 : d ∈ chainPaths (acc ++ "/" ++ part) (p2 :: rest)
      · rw [if_pos (List.mem_cons.mpr (Or.inr hd2)), if_pos hd2]
        have hu := chainPaths_under (p2 :: rest) (acc ++ "/" ++ part) d hd2
        have hz1 : countFolderNodes d l1 = 0 :=
          countFolder_zero_under l1 acc hca1 part hpw.2 hnol1 d hu
        have hz2 : countFolderNodes d l2 = 0 :=
          countFolder_zero_under l2 acc hca2 part hpw.2 hnol2 d hu
        rw [hz1, hz2, if_neg (fun he => hd1 he.symm)]
      · have hmemn : d ∉ (acc ++ "/" ++ part) :: chainPaths (acc ++ "/" ++ part) (p2 :: rest) := by
          intro hmem
          rcases List.mem_cons.mp hmem with hmem | hmem
          · exact hd1 hmem
          · exact hd2 hmem
        rw [if_neg hmemn, if_neg hd2, if_neg (fun he => hd1 he.symm)]
        have hlev : countFolderNodes d level =
            countFolderNodes d l1 + countFolderNodes d ch + countFolderNodes d l2 := by
          rw [← level1_countFolder acc part level d (fun he => hd1 he.symm), hsplit,
            countFolderNodes_append, countFolderNodes_cons, countFolderNode1_folder,
            if_neg (fun he => hd1 he.symm)]
          omega
        rw [hlev]
        omega

theorem insert_ordered : ∀ (parts : List String) (f : InputFile) (acc : String)
    (level : List FileNode), pairwiseLeB level = true → forestOrdered level = true →
    pairwiseLeB (insertLevel f parts acc level) = true ∧
    forestOrdered (insertLevel f parts acc level) = true
  | [], f, acc, level, _, h2 => by
    rw [insertLevel]
    refine ⟨pairwiseLeB_sortLevel _, ?_⟩
    rw [forestOrdered_perm (sortLevel_perm _), forestOrdered_append, h2]
    simp [forestOrdered]
  | [last], f, acc, level, _, h2 => by
    rw [insertLevel]
    refine ⟨pairwiseLeB_sortLevel _, ?_⟩
    rw [forestOrdered_perm (sortLevel_perm _), forestOrdered_append, h2]
    simp [forestOrdered]
  | part :: p2 :: rest, f, acc, level, h1, h2 => by
    rw [insertLevel_step_eq]
    obtain ⟨hl1p, hl1o⟩ := level1_ordered acc part level h1 h2
    constructor
    · rw [pairwiseLeB_map_descend]
      exact hl1p
    · rw [forestOrdered_eq_all, List.all_map, List.all_eq_true]
      intro n hn
      have hn1 : forestOrdered1 n = true := by
        rw [forestOrdered_eq_all, List.all_eq_true] at hl1o
        exact hl1o n hn
      show forestOrdered1 (descend f (p2 :: rest) (acc ++ "/" ++ part) n) = true
      cases n with
      | file nm p g =>
        rw [show descend f (p2 :: rest) (acc ++ "/" ++ part) (.file nm p g) = .file nm p g
          from by simp [descend]]
        exact hn1
      | folder nm p ch =>
        by_cases hp : p = acc ++ "/" ++ part
        · have hch : pairwiseLeB ch = true ∧ forestOrdered ch = true := by
            have := hn1
            simp only [forestOrdered1, forestOrdered, Bool.and_eq_true] at this
            exact ⟨this.1.1, this.1.2⟩
          have hrec := insert_ordered (p2 :: rest) f (acc ++ "/" ++ part) ch hch.1 hch.2
          rw [show descend f (p2 :: rest) (acc ++ "/" ++ part) (.folder nm p ch) =
            .folder nm p (insertLevel f (p2 :: rest) (acc ++ "/" ++ part) ch)
            from by simp [descend, hp]]
          simp only [forestOrdered1, forestOrdered, Bool.and_eq_true]
          exact ⟨⟨hrec.1, hrec.2⟩, trivial⟩
        · rw [show descend f (p2 :: rest) (acc ++ "/" ++ part) (.folder nm p ch) =
            .folder nm p ch from by simp [descend, hp]]
          exact hn1

theorem fold_canon (todo : List InputFile) (tree : List FileNode) (hc : CanonLevel "" tree) :
    CanonLevel ""
      (todo.foldl (fun tr f => insertLevel f (pathParts f.path) "" tr) tree) := by
  induction todo generalizing tree with
  | nil => exact hc
  | cons f rest ih =>
    rw [List.foldl_cons]
    exact ih _ (insert_canon (pathParts f.path) f "" tree hc (pathParts_wf f.path))

theorem fold_countFile (todo : List InputFile) (tree : List FileNode)
    (hc : CanonLevel "" tree) (q : String) :
    countFileNodes q (todo.foldl (fun tr f => insertLevel f (pathParts f.path) "" tr) tree) =
      countFileNodes q tree + todo.countP (fun f => f.path == q) := by
  induction todo generalizing tree with
  | nil => simp
  | cons f rest ih =>
    rw [List.foldl_cons,
      ih _ (insert_canon (pathParts f.path) f "" tree hc (pathParts_wf f.path)),
      insert_countFile (pathParts f.path) f "" tree hc (pathParts_wf f.path) q,
      List.countP_cons]
    by_cases hq : f.path = q
    · simp [hq]
      omega
    · simp [hq]

theorem fold_countFolder (todo : List InputFile) (tree : List FileNode)
    (hc : CanonLevel "" tree) (chains : List String)
    (hbase : ∀ d, countFolderNodes d tree = if d ∈ chains then 1 else 0) :
    ∀ d, countFolderNodes d
        (todo.foldl (fun tr f => insertLevel f (pathParts f.path) "" tr) tree) =
      if d ∈ chains ++ todo.flatMap (fun f => chainPaths "" (pathParts f.path)) then 1
      else 0 := by
  induction todo generalizing tree chains with
  | nil =>
    intro d
    simpa using hbase d
  | cons f rest ih =>
    intro d
    rw [List.foldl_cons]
    have hc2 := insert_canon (pathParts f.path) f "" tree hc (pathParts_wf f.path)
    have hnewbase : ∀ d2, countFolderNodes d2 (insertLevel f (pathParts f.path) "" tree) =
        if d2 ∈ chains ++ chainPaths "" (pathParts f.path) then 1 else 0 := by
      intro d2
      rw [insert_countFolder (pathParts f.path) f "" tree hc (pathParts_wf f.path) d2,
        hbase d2]
      by_cases h1 : d2 ∈ chainPaths "" (pathParts f.path) <;>
        by_cases h2 : d2 ∈ chains <;>
        simp [List.mem_append, h1, h2]
    rw [ih _ hc2 (chains ++ chainPaths "" (pathParts f.path)) hnewbase d,
      List.flatMap_cons, ← List.append_assoc]

theorem fold_ordered (todo : List InputFile) (tree : List FileNode)
    (h1 : pairwiseLeB tree = true) (h2 : forestOrdered tree = true) :
    pairwiseLeB (todo.foldl (fun tr f => insertLevel f (pathParts f.path) "" tr) tree) = true ∧
    forestOrdered (todo.foldl (fun tr f => insertLevel f (pathParts f.path) "" tr) tree) = true := by
  induction todo generalizing tree with
  | nil => exact ⟨h1, h2⟩
  | cons f rest ih =>
    rw [List.foldl_cons]
    have hi := insert_ordered (pathParts f.path) f "" tree h1 h2
    exact ih _ hi.1 hi.2

/-- C10: for well-formed, pairwise-distinct input paths, `buildFileTree`
produces each input file exactly once as a file node carrying that path, each
strict directory prefix of any input path exactly once as a folder node, and
every sibling level has all folders before all files with same-type siblings
in ascending name order. -/
theorem buildFileTree_correct (files : List InputFile)
    (_hwf : ∀ f ∈ files, IsWfPath f.path)
    (hnd : (files.map InputFile.path).Nodup) :
    (∀ f ∈ files, countFileNodes f.path (buildFileTree files) = 1) ∧
    (∀ f ∈ files, ∀ k, 1 ≤ k → k < (pathParts f.path).length →
      countFolderNodes (joinSegs ((pathParts f.path).take k)) (buildFileTree files) = 1) ∧
    pairwiseLeB (buildFileTree files) = true ∧
    forestOrdered (buildFileTree files) = true := by
  have hc0 : CanonLevel "" ([] : List FileNode) := ⟨by simp [folderPaths], by simp [CanonAll]⟩
  refine ⟨?_, ?_, ?_⟩
  · intro f hf
    unfold buildFileTree
    rw [fold_countFile (sortFiles files) [] hc0 f.path]
    rw [show countFileNodes f.path ([] : List FileNode) = 0 from by simp [countFileNodes]]
    rw [show (sortFiles files).countP (fun g => g.path == f.path) =
        files.countP (fun g => g.path == f.path) from
      (List.mergeSort_perm files _).countP_eq _]
    have hcnt : files.countP (fun g => g.path == f.path) =
        List.count f.path (files.map InputFile.path) := by
      rw [show List.count f.path (files.map InputFile.path) =
        List.countP (fun x => x == f.path) (files.map InputFile.path) from rfl]
      rw [List.countP_map]
      rfl
    rw [hcnt, List.count_eq_one_of_mem hnd (List.mem_map_of_mem InputFile.path hf)]
  · intro f hf k hk1 hk2
    unfold buildFileTree
    rw [fold_countFolder (sortFiles files) [] hc0 []
      (by intro d; simp [countFolderNodes]) _]
    rw [if_pos ?_]
    rw [List.nil_append]
    refine List.mem_flatMap.mpr ⟨f, ?_, ?_⟩
    · exact (List.mergeSort_perm files _).mem_iff.mpr hf
    · exact mem_chainPaths (pathParts f.path) "" k hk1 (by omega)
  · unfold buildFileTree
    exact fold_ordered (sortFiles files) [] (by simp [pairwiseLeB]) (by simp [forestOrdered])

/-- A demonstration input list for `buildFileTree`. -/
def demoFiles10 : List InputFile :=
  [⟨"/src/a.ts", "x"⟩, ⟨"/src/b.ts", "y"⟩, ⟨"/a.md", "z"⟩]

/-- C10 witness: the hypotheses hold for a concrete three-file input and the
conclusion is realized at the file `/src/a.ts` and its directory prefix. -/
theorem buildFileTree_correct_witness :
    ((∀ f ∈ demoFiles10, IsWfPath f.path) ∧ (demoFiles10.map InputFile.path).Nodup) ∧
    countFileNodes "/src/a.ts" (buildFileTree demoFiles10) = 1 ∧
    countFolderNodes (joinSegs ((pathParts "/src/a.ts").take 1)) (buildFileTree demoFiles10) = 1 ∧
    pairwiseLeB (buildFileTree demoFiles10) = true ∧
    forestOrdered (buildFileTree demoFiles10) = true := by
  have hwf : ∀ f ∈ demoFiles10, IsWfPath f.path := by
    intro f hf
    simp only [demoFiles10, List.mem_cons, List.not_mem_nil, or_false] at hf
    rcases hf with hf | hf | hf <;> subst hf
    · exact ⟨["src", "a.ts"], by decide, by decide, by decide⟩
    · exact ⟨["src", "b.ts"], by decide, by decide, by decide⟩
    · exact ⟨["a.md"], by decide, by decide, by decide⟩
  have hnd : (demoFiles10.map InputFile.path).Nodup := by decide
  have h := buildFileTree_correct demoFiles10 hwf hnd
  refine ⟨⟨hwf, hnd⟩, ?_, ?_, h.2.2.1, h.2.2.2⟩
  · exact h.1 ⟨"/src/a.ts", "x"⟩ (by decide)
  · exact h.2.1 ⟨"/src/a.ts", "x"⟩ (by decide) 1 (by decide) (by decide)
